import Mathlib

/-!
Verification development for the LerkBot_Horizon achievement services:
`src/services/player_achievements_store.py` and
`src/services/achievements_catalog.py`.

Python strings are modelled as lists of characters (`Str`), Python `set`
as `Finset Str`, and a Python `dict` as an association list with unique
keys, with `dictInsert` implementing dict assignment (replace in place
preserving position, append if the key is new) and `dictGet` lookup.
`pyStrip`, `pyLower` and `pySplit` model `str.strip()`, `str.lower()`
(ASCII case mapping) and `str.split(sep)` for a one-character separator.
A file is modelled as its list of lines (without newline terminators;
the reader strips each line, so this is faithful as long as no embedded
newline occurs in a written field).
-/

namespace LerkBot

abbrev Str := List Char

/-- Convenience conversion from a string literal to the character-list model. -/
def str (s : String) : Str := s.toList

/-- Model of Python `str.strip()`: drop whitespace from both ends. -/
def pyStrip (s : Str) : Str :=
  ((s.dropWhile Char.isWhitespace).reverse.dropWhile Char.isWhitespace).reverse

/-- Model of Python `str.lower()` (ASCII case mapping). -/
def pyLower (s : Str) : Str := s.map Char.toLower

/-- Model of Python `s.split(c)` for a single-character separator. -/
def pySplit (c : Char) (s : Str) : List Str := s.splitOn c

/-- Source: `PlayerAchievementsStore._normalize_ckey` — `ckey.strip().lower()`. -/
def normalizeCkey (s : Str) : Str := pyLower (pyStrip s)

/-- Source: the inline normalization `ach_id.strip().lower()` used by the store. -/
def normalizeAchId (s : Str) : Str := pyLower (pyStrip s)

/-- A store record value: `(ds_nickname, achievements_set)`. -/
abbrev Rec := Str × Finset Str

/-- The in-memory store: Python `dict[str, tuple[str, set[str]]]` as an
association list in insertion order with unique keys. -/
abbrev Store := List (Str × Rec)

/-- Python dict assignment `m[k] = v`: replace the (unique) existing
occurrence in place, else append at the end. -/
def dictInsert {α : Type} : List (Str × α) → Str → α → List (Str × α)
  | [], k, v => [(k, v)]
  | p :: ps, k, v => if p.1 = k then (k, v) :: ps else p :: dictInsert ps k v

/-- Python dict lookup `m.get(k)` / `m[k]`. -/
def dictGet {α : Type} : List (Str × α) → Str → Option α
  | [], _ => none
  | p :: ps, k => if p.1 = k then some p.2 else dictGet ps k

/-- Source: the body of `_read_all`'s loop once the line has split into at
least two fields (`parts[0]`, `parts[1]`, and the remaining fields): strip
the nickname, normalize the ckey (skip the record when it is empty), and
parse the comma-separated achievement list of `parts[2]` (empty when the
third field is absent or blank). -/
def parseFields (p0 p1 : Str) (rest : List Str) : Option (Str × Rec) :=
  let dsNickname := pyStrip p0
  let ckey := normalizeCkey (pyStrip p1)
  if ckey = [] then none
  else
    let achievementsStr := pyStrip (rest.headD [])
    let achievementsSet : Finset Str :=
      if achievementsStr = [] then ∅
      else ((pySplit ',' achievementsStr).filter
              (fun a => pyStrip a ≠ [])).map (fun a => pyLower (pyStrip a))
           |>.toFinset
    some (ckey, (dsNickname, achievementsSet))

/-- Source: the per-line parsing loop of `PlayerAchievementsStore._read_all`.
Returns `none` for a line that is skipped (blank, comment, fewer than two
fields, or empty normalized ckey), else the parsed `(ckey, (nickname, set))`. -/
def parseLine (line : Str) : Option (Str × Rec) :=
  let l := pyStrip line
  if l = [] ∨ l.head? = some '#' then none
  else
    match pySplit '|' l with
    | p0 :: p1 :: rest => parseFields p0 p1 rest
    | _ => none

/-- One iteration of a parsing loop: skip an unparsable line, otherwise
assign the parsed key-value pair into the dict. -/
def insertParsed {α : Type} (f : Str → Option (Str × α))
    (m : List (Str × α)) (line : Str) : List (Str × α) :=
  match f line with
  | none => m
  | some e => dictInsert m e.1 e.2

/-- Source: `PlayerAchievementsStore._read_all` — fold every line of the
file into a dict (`players[ckey] = (ds_nickname, achievements_set)`),
later lines with the same ckey overwriting earlier ones. -/
def readAll (lines : List Str) : Store :=
  lines.foldl (insertParsed parseLine) []

/-- Model of Python `sorted(set_of_strings)`: the unique lexicographically
ascending duplicate-free list of the set's elements (computed by insertion
sort, which the kernel can evaluate). -/
def pySorted (s : Finset Str) : List Str :=
  Quot.liftOn s.val (List.insertionSort (· ≤ ·)) fun _ _ h =>
    List.eq_of_perm_of_sorted
      ((List.perm_insertionSort _ _).trans (h.trans (List.perm_insertionSort _ _).symm))
      (List.sorted_insertionSort _ _) (List.sorted_insertionSort _ _)

/-- Model of Python `sep.join(parts)` for a one-character separator. -/
def pyJoin (sep : Char) : List Str → Str
  | [] => []
  | [a] => a
  | a :: rest => a ++ sep :: pyJoin sep rest

/-- Source: `','.join(sorted(achievements_set)) if achievements_set else ""`. -/
def serializeAchievements (s : Finset Str) : Str :=
  if s = ∅ then [] else pyJoin ',' (pySorted s)

/-- Source: the line `f"{ds_nickname}|{ckey}|{achievements_str}"` written by
`_write_all` for one record (newline terminator omitted in the line model). -/
def serializeLine (ckey : Str) (r : Rec) : Str :=
  r.1 ++ '|' :: (ckey ++ '|' :: serializeAchievements r.2)

/-- Source: `PlayerAchievementsStore._write_all` — one line per record, in
dict order. -/
def writeAll (m : Store) : List Str := m.map (fun p => serializeLine p.1 p.2)

/-- Source: `PlayerAchievementsStore.get_player_achievements`. -/
def getPlayerAchievements (m : Store) (ckey : Str) : Option (Finset Str) :=
  match dictGet m (normalizeCkey ckey) with
  | none => none
  | some r => some r.2

/-- Source: `PlayerAchievementsStore.upsert_player` (the pure state change). -/
def upsertPlayer (m : Store) (ckey dsNickname : Str) (achievements : Finset Str) : Store :=
  let nc := normalizeCkey ckey
  let normalized := (achievements.filter (fun a => pyStrip a ≠ [])).image normalizeAchId
  dictInsert m nc (dsNickname, normalized)

/-- Source: `PlayerAchievementsStore.add_achievement` (the pure state
change of one read-modify-write cycle): result flag and new store. -/
def addAchievement (m : Store) (ckey dsNickname achId : Str) : Bool × Store :=
  let nc := normalizeCkey ckey
  let na := normalizeAchId achId
  let cur : Str × Finset Str :=
    match dictGet m nc with
    | some r => ((if dsNickname ≠ [] then dsNickname else r.1), r.2)
    | none => (dsNickname, (∅ : Finset Str))
  if na ∈ cur.2 then (false, m)
  else (true, dictInsert m nc (cur.1, insert na cur.2))

/-- Source: `PlayerAchievementsStore.remove_achievement` (the pure state
change of one read-modify-write cycle). -/
def removeAchievement (m : Store) (ckey dsNickname achId : Str) : Bool × Store :=
  let nc := normalizeCkey ckey
  let na := normalizeAchId achId
  match dictGet m nc with
  | none => (false, m)
  | some r =>
      if na ∉ r.2 then (false, m)
      else (true, dictInsert m nc (dsNickname, r.2.erase na))

/-- Source: `PlayerAchievementsStore.remove_achievement_from_all_players`
(the pure state change): the count of changed records and the new store. -/
def removeAchievementFromAllPlayers (m : Store) (achId : Str) : Nat × Store :=
  let na := normalizeAchId achId
  (m.countP (fun p => na ∈ p.2.2),
   m.map (fun p => if na ∈ p.2.2 then (p.1, (p.2.1, p.2.2.erase na)) else p))

/-- Source: the tail of `remove_achievement_from_all_players` — the file is
rewritten only when `count_removed > 0`, else it is left untouched. -/
def removeAllAndPersist (lines : List Str) (achId : Str) : Nat × List Str :=
  let m := readAll lines
  let out := removeAchievementFromAllPlayers m achId
  if out.1 > 0 then (out.1, writeAll out.2) else (out.1, lines)

/-- Source: `AchDefinition` dataclass of `achievements_catalog.py`. -/
structure AchDefinition where
  id : Str
  title : Str
  description : Str
deriving DecidableEq

/-- Source: `ACHIEVEMENT_ID_PATTERN = re.compile(r'^[a-z0-9_]+$')`, character test. -/
def isIdChar (c : Char) : Bool :=
  ('a' ≤ c && c ≤ 'z') || ('0' ≤ c && c ≤ '9') || c == '_'

/-- Source: `ACHIEVEMENT_ID_PATTERN.match(ach_id)` — full match of a
nonempty run of `[a-z0-9_]` characters. -/
def matchesIdPat (s : Str) : Bool :=
  !s.isEmpty && s.all isIdChar

/-- Source: the per-line parsing of `AchievementsCatalog.load`. Returns
`none` for a skipped line (blank, comment, field count different from 3,
or invalid id), else the parsed definition. -/
def parseCatalogLine (line : Str) : Option AchDefinition :=
  let l := pyStrip line
  if l = [] ∨ l.head? = some '#' then none
  else
    match pySplit '|' l with
    | [p0, p1, p2] =>
      let achId := pyLower (pyStrip p0)
      if matchesIdPat achId then some ⟨achId, pyStrip p1, pyStrip p2⟩ else none
    | _ => none

/-- Source: the parsing loop of `AchievementsCatalog.load` over the lines of
an existing, readable file: build the id-keyed dict
(`self._catalog[ach_id] = AchDefinition(...)`), skipping bad lines. -/
def catalogLoad (lines : List Str) : List (Str × AchDefinition) :=
  lines.foldl (insertParsed (fun l => (parseCatalogLine l).map (fun d => (d.id, d)))) []

/-- The three ways reading the catalog's backing file can go: the file does
not exist, the whole file is read, or an I/O error interrupts the read. -/
inductive ReadOutcome where
  | missing
  | fullRead (lines : List Str)
  | failedRead (linesBeforeFailure : List Str)
deriving DecidableEq

/-- Outcome of `AchievementsCatalog.load`: whether an exception propagated
to the caller, and the in-memory table `self._catalog` afterwards. -/
structure LoadResult where
  raised : Bool
  table : List (Str × AchDefinition)
deriving DecidableEq

/-- Source: the control flow of `AchievementsCatalog.load` — a missing file
yields an empty table and returns normally; a full read builds the table;
an exception resets `self._catalog = {}` and re-raises. -/
def catalogLoadRun : ReadOutcome → LoadResult
  | .missing => ⟨false, []⟩
  | .fullRead lines => ⟨false, catalogLoad lines⟩
  | .failedRead _ => ⟨true, []⟩

/-!
Concurrency model for `add_achievement`. In the source, `_read_all` and
`_write_all` each acquire the module-level `asyncio.Lock` separately; the
in-between mutation runs outside the lock. So one `add_achievement` call
consists of two atomic transitions with a possible suspension between them:
the locked read of the file, and the locked whole-file write (skipped when
the add returns `False`). `runSched` executes two such tasks under an
arbitrary interleaving chosen by a schedule (`true` steps task A, `false`
steps task B).
-/

/-- One in-flight `add_achievement(ckey, ds_nickname, ach_id)` call:
program counter 0 = about to read, 1 = about to write, 2 = done. -/
structure TaskState where
  ckey : Str
  nick : Str
  achId : Str
  pc : Nat
  localStore : Store
  ret : Option Bool
deriving DecidableEq

/-- Run one atomic transition of a task against the shared file. -/
def stepTask (file : List Str) (t : TaskState) : List Str × TaskState :=
  match t.pc with
  | 0 => (file, ⟨t.ckey, t.nick, t.achId, 1, readAll file, t.ret⟩)
  | 1 =>
      let r := addAchievement t.localStore t.ckey t.nick t.achId
      ((if r.1 then writeAll r.2 else file),
       ⟨t.ckey, t.nick, t.achId, 2, t.localStore, some r.1⟩)
  | _ => (file, t)

/-- Shared file plus two in-flight `add_achievement` calls. -/
structure SysState where
  file : List Str
  taskA : TaskState
  taskB : TaskState
deriving DecidableEq

/-- Execute a schedule: `true` steps task A, `false` steps task B. -/
def runSched : List Bool → SysState → SysState
  | [], s => s
  | b :: bs, s =>
      if b then
        let r := stepTask s.file s.taskA
        runSched bs ⟨r.1, r.2, s.taskB⟩
      else
        let r := stepTask s.file s.taskB
        runSched bs ⟨r.1, s.taskA, r.2⟩

/-- A fresh `add_achievement` task, not yet started. -/
def mkTask (ckey nick achId : Str) : TaskState := ⟨ckey, nick, achId, 0, [], none⟩

/-- Initial state for the race scenario of two adds on different ckeys
over an initially empty store file. -/
def raceInit : SysState :=
  ⟨[], mkTask (str "alice") (str "A") (str "ach_a"),
       mkTask (str "bob") (str "B") (str "ach_b")⟩

/-- Source: `add_achievement` at file level — the file is rewritten from the
mutated map exactly on the `True` path, and left untouched on the early
`return False`. -/
def addAndPersist (lines : List Str) (ckey dsNickname achId : Str) : Bool × List Str :=
  let out := addAchievement (readAll lines) ckey dsNickname achId
  if out.1 then (out.1, writeAll out.2) else (out.1, lines)

/-- Source: `remove_achievement` at file level — the file is rewritten from
the mutated map exactly on the `True` path, and left untouched on the early
`return False` paths. -/
def removeAndPersist (lines : List Str) (ckey dsNickname achId : Str) : Bool × List Str :=
  let out := removeAchievement (readAll lines) ckey dsNickname achId
  if out.1 then (out.1, writeAll out.2) else (out.1, lines)

/-- The ckeys of the store's records, in order. -/
def storeKeys (m : Store) : List Str := m.map Prod.fst

/-- The first character of `s`, if any, is not whitespace. -/
def headNotWs (s : Str) : Bool :=
  match s.head? with
  | none => true
  | some c => !c.isWhitespace

/-- The last character of `s`, if any, is not whitespace. -/
def lastNotWs (s : Str) : Bool :=
  match s.getLast? with
  | none => true
  | some c => !c.isWhitespace

/-- Neither end of `s` carries whitespace, i.e. `s.strip()` is `s` itself. -/
abbrev noEdgeWs (s : Str) : Prop := headNotWs s = true ∧ lastNotWs s = true

/-- A display name that the store file format can represent faithfully:
no surrounding whitespace, no field separator, no newline, and not
starting with the comment character. -/
abbrev WFName (ds : Str) : Prop :=
  noEdgeWs ds ∧ '|' ∉ ds ∧ '\n' ∉ ds ∧ ds.head? ≠ some '#'

/-- A ckey as the store persists it: nonempty, already normalized
(stripped and lowercase), with no field separator and no newline. -/
abbrev WFCkey (k : Str) : Prop :=
  k ≠ [] ∧ noEdgeWs k ∧ pyLower k = k ∧ '|' ∉ k ∧ '\n' ∉ k

/-- An achievement id as the store persists it: nonempty, already
normalized, and free of the list separator, the field separator and
newlines. -/
abbrev WFAchId (a : Str) : Prop :=
  a ≠ [] ∧ noEdgeWs a ∧ pyLower a = a ∧ ',' ∉ a ∧ '|' ∉ a ∧ '\n' ∉ a

/-- A store state the file format represents faithfully: unique ckeys and
well-formed fields in every record. -/
abbrev WFStore (m : Store) : Prop :=
  (storeKeys m).Nodup ∧
  ∀ e ∈ m, WFCkey e.1 ∧ WFName e.2.1 ∧ ∀ a ∈ e.2.2, WFAchId a

/-- A small concrete store used by the witnesses. -/
def demoStore : Store :=
  [(str "bob", (str "Bob", ({str "first_blood"} : Finset Str)))]

/-! ### Association-list (Python dict) lemmas -/

theorem dictGet_dictInsert_self {α : Type} (m : List (Str × α)) (k : Str) (v : α) :
    dictGet (dictInsert m k v) k = some v := by
  induction m with
  | nil => simp [dictInsert, dictGet]
  | cons p ps ih =>
    by_cases h : p.1 = k
    · simp [dictInsert, dictGet, h]
    · simp [dictInsert, dictGet, h, ih]

theorem dictGet_dictInsert_ne {α : Type} (m : List (Str × α)) (k : Str) (v : α)
    (k' : Str) (h : k' ≠ k) : dictGet (dictInsert m k v) k' = dictGet m k' := by
  induction m with
  | nil => simp [dictInsert, dictGet, Ne.symm h]
  | cons p ps ih =>
    by_cases hp : p.1 = k
    · subst hp
      simp [dictInsert, dictGet, Ne.symm h]
    · simp only [dictInsert, if_neg hp]
      by_cases hp' : p.1 = k'
      · simp [dictGet, hp']
      · simp [dictGet, hp', ih]

theorem keys_dictInsert {α : Type} (m : List (Str × α)) (k : Str) (v : α) :
    (dictInsert m k v).map Prod.fst =
      if k ∈ m.map Prod.fst then m.map Prod.fst else m.map Prod.fst ++ [k] := by
  induction m with
  | nil => simp [dictInsert]
  | cons p ps ih =>
    by_cases h : p.1 = k
    · subst h
      have hm : p.1 ∈ (p :: ps).map Prod.fst :=
        List.mem_map_of_mem Prod.fst (List.mem_cons_self p ps)
      rw [if_pos hm]
      simp [dictInsert]
    · simp only [dictInsert, if_neg h, List.map_cons, ih]
      by_cases hm : k ∈ ps.map Prod.fst
      · simp [hm, Ne.symm h]
      · simp [hm, Ne.symm h]

theorem keys_nodup_dictInsert {α : Type} (m : List (Str × α)) (k : Str) (v : α)
    (h : (m.map Prod.fst).Nodup) : ((dictInsert m k v).map Prod.fst).Nodup := by
  rw [keys_dictInsert]
  by_cases hm : k ∈ m.map Prod.fst
  · rw [if_pos hm]
    exact h
  · rw [if_neg hm, List.nodup_append]
    exact ⟨h, List.nodup_singleton k,
      fun x hx hk => hm ((List.mem_singleton.mp hk) ▸ hx)⟩

theorem dictInsert_eq_append {α : Type} (m : List (Str × α)) (k : Str) (v : α)
    (h : k ∉ m.map Prod.fst) : dictInsert m k v = m ++ [(k, v)] := by
  induction m with
  | nil => simp [dictInsert]
  | cons p ps ih =>
    simp only [List.map_cons, List.mem_cons] at h
    push_neg at h
    simp [dictInsert, Ne.symm h.1, ih h.2]

/-! ### C6: getPlayerAchievements -/

/-- C6: `getPlayerAchievements` normalizes the ckey before lookup, returns
`none` exactly when no record exists for the normalized ckey, otherwise the
record's achievement set (so an empty recorded set comes back as `some ∅`,
distinct from `none`), and any two ckeys with the same normalization give
the same answer. -/
theorem getPlayerAchievements_spec (m : Store) (ckey : Str) :
    (getPlayerAchievements m ckey = none ↔ dictGet m (normalizeCkey ckey) = none) ∧
    (∀ r, dictGet m (normalizeCkey ckey) = some r →
        getPlayerAchievements m ckey = some r.2) ∧
    (∀ k, normalizeCkey k = normalizeCkey ckey →
        getPlayerAchievements m k = getPlayerAchievements m ckey) := by
  refine ⟨?_, ?_, ?_⟩
  · unfold getPlayerAchievements
    cases dictGet m (normalizeCkey ckey) <;> simp
  · intro r hr
    unfold getPlayerAchievements
    rw [hr]
  · intro k hk
    unfold getPlayerAchievements
    rw [hk]

/-- Witness for C6: in the demo store, lookup is case-insensitive and
returns the recorded set. -/
theorem getPlayerAchievements_spec_witness :
    getPlayerAchievements demoStore (str "BOB") = some {str "first_blood"} :=
  (getPlayerAchievements_spec demoStore (str "BOB")).2.1
    (str "Bob", {str "first_blood"}) (by decide)


/-! ### C2: addAchievement -/

/-- C2: `addAchievement` is a no-op returning `false` when the normalized id
is already in the player's set; otherwise it returns `true`, the record now
maps the normalized ckey to the old set plus the id (with an empty prior set
when the record was absent), the stored display name is updated only when a
non-empty one is supplied, other records are untouched, the file is not
rewritten on the `false` path, and a repeated add of the same id returns
`false` without changing the store. -/
theorem addAchievement_spec (m : Store) (ckey ds ach : Str) :
    (∀ r, dictGet m (normalizeCkey ckey) = some r → normalizeAchId ach ∈ r.2 →
        addAchievement m ckey ds ach = (false, m)) ∧
    (∀ r, dictGet m (normalizeCkey ckey) = some r → normalizeAchId ach ∉ r.2 →
        (addAchievement m ckey ds ach).1 = true ∧
        dictGet (addAchievement m ckey ds ach).2 (normalizeCkey ckey) =
          some ((if ds = [] then r.1 else ds), insert (normalizeAchId ach) r.2)) ∧
    (dictGet m (normalizeCkey ckey) = none →
        (addAchievement m ckey ds ach).1 = true ∧
        dictGet (addAchievement m ckey ds ach).2 (normalizeCkey ckey) =
          some (ds, {normalizeAchId ach})) ∧
    (∀ k, normalizeCkey k ≠ normalizeCkey ckey →
        dictGet (addAchievement m ckey ds ach).2 (normalizeCkey k) =
          dictGet m (normalizeCkey k)) ∧
    (∀ lines, (addAchievement (readAll lines) ckey ds ach).1 = false →
        addAndPersist lines ckey ds ach = (false, lines)) ∧
    ((addAchievement m ckey ds ach).1 = true →
        ∀ ds2, addAchievement (addAchievement m ckey ds ach).2 ckey ds2 ach =
          (false, (addAchievement m ckey ds ach).2)) := by
  refine ⟨?_, ?_, ?_, ?_, ?_, ?_⟩
  · intro r hr hmem
    simp only [addAchievement]
    rw [hr]
    simp [hmem]
  · intro r hr hmem
    simp only [addAchievement]
    rw [hr]
    by_cases hds : ds = []
    · simp [hds, hmem, dictGet_dictInsert_self]
    · simp [hds, hmem, dictGet_dictInsert_self]
  · intro hr
    simp only [addAchievement]
    rw [hr]
    simp [dictGet_dictInsert_self]
  · intro k hk
    simp only [addAchievement]
    cases hr : dictGet m (normalizeCkey ckey) with
    | none =>
        simp only [Finset.not_mem_empty, if_false]
        exact dictGet_dictInsert_ne _ _ _ _ hk
    | some r =>
        by_cases hmem : normalizeAchId ach ∈ r.2
        · simp [hmem]
        · simp only [hmem, if_false]
          exact dictGet_dictInsert_ne _ _ _ _ hk
  · intro lines hfalse
    simp only [addAndPersist]
    rw [hfalse]
    simp
  · intro htrue ds2
    simp only [addAchievement] at htrue ⊢
    cases hr : dictGet m (normalizeCkey ckey) with
    | none =>
        simp only [Finset.not_mem_empty, if_false]
        rw [dictGet_dictInsert_self]
        simp
    | some r =>
        rw [hr] at htrue
        by_cases hmem : normalizeAchId ach ∈ r.2
        · rw [if_pos hmem] at htrue
          exact absurd htrue (by simp)
        · simp only [hmem, if_false]
          rw [dictGet_dictInsert_self]
          simp

/-- Witness for C2: adding an id already present (under normalization) is a
no-op returning `false`. -/
theorem addAchievement_spec_witness :
    addAchievement demoStore (str "BOB") (str "Bobby") (str "First_Blood") =
      (false, demoStore) :=
  (addAchievement_spec demoStore (str "BOB") (str "Bobby") (str "First_Blood")).1
    (str "Bob", {str "first_blood"}) (by decide) (by decide)

/-! ### C8: removeAchievement -/

/-- C8: `removeAchievement` returns `false` and leaves the state (and file)
unchanged exactly when no record exists for the normalized ckey or the id is
not in its set; when the id is present it returns `true` and the persisted
record no longer contains the id. -/
theorem removeAchievement_spec (m : Store) (ckey ds ach : Str) :
    (dictGet m (normalizeCkey ckey) = none →
        removeAchievement m ckey ds ach = (false, m)) ∧
    (∀ r, dictGet m (normalizeCkey ckey) = some r → normalizeAchId ach ∉ r.2 →
        removeAchievement m ckey ds ach = (false, m)) ∧
    (∀ r, dictGet m (normalizeCkey ckey) = some r → normalizeAchId ach ∈ r.2 →
        (removeAchievement m ckey ds ach).1 = true ∧
        dictGet (removeAchievement m ckey ds ach).2 (normalizeCkey ckey) =
          some (ds, r.2.erase (normalizeAchId ach)) ∧
        normalizeAchId ach ∉ r.2.erase (normalizeAchId ach)) ∧
    (∀ lines, (removeAchievement (readAll lines) ckey ds ach).1 = false →
        removeAndPersist lines ckey ds ach = (false, lines)) := by
  refine ⟨?_, ?_, ?_, ?_⟩
  · intro hr
    simp only [removeAchievement]
    rw [hr]
  · intro r hr hmem
    simp only [removeAchievement]
    rw [hr]
    simp [hmem]
  · intro r hr hmem
    simp only [removeAchievement]
    rw [hr]
    refine ⟨by simp [hmem], ?_, Finset.not_mem_erase _ _⟩
    simp [hmem, dictGet_dictInsert_self]
  · intro lines hfalse
    simp only [removeAndPersist]
    rw [hfalse]
    simp

/-- Witness for C8: removing an id that the record does not contain returns
`false` and leaves the store unchanged. -/
theorem removeAchievement_spec_witness :
    removeAchievement demoStore (str "bob") (str "B") (str "no_such") =
      (false, demoStore) :=
  (removeAchievement_spec demoStore (str "bob") (str "B") (str "no_such")).2.1
    (str "Bob", {str "first_blood"}) (by decide) (by decide)

/-! ### C10: display-name update asymmetry between remove and add -/

/-- C10: a successful `removeAchievement` replaces the stored display name
by the argument unconditionally (so an empty argument erases it), while a
successful `addAchievement` with an empty display name keeps the stored
one. -/
theorem displayName_update_contrast (m : Store) (ckey ach : Str) (r : Rec)
    (hr : dictGet m (normalizeCkey ckey) = some r) :
    (∀ ds, normalizeAchId ach ∈ r.2 →
        dictGet (removeAchievement m ckey ds ach).2 (normalizeCkey ckey) =
          some (ds, r.2.erase (normalizeAchId ach))) ∧
    (normalizeAchId ach ∉ r.2 →
        dictGet (addAchievement m ckey [] ach).2 (normalizeCkey ckey) =
          some (r.1, insert (normalizeAchId ach) r.2)) := by
  constructor
  · intro ds hmem
    simp only [removeAchievement]
    rw [hr]
    simp [hmem, dictGet_dictInsert_self]
  · intro hmem
    simp only [addAchievement]
    rw [hr]
    simp [hmem, dictGet_dictInsert_self]

/-- Witness for C10: removing the only achievement with an empty display
name erases the stored name. -/
theorem displayName_update_contrast_witness :
    dictGet (removeAchievement demoStore (str "bob") [] (str "first_blood")).2
      (normalizeCkey (str "bob")) = some ([], (∅ : Finset Str)) := by
  have h := (displayName_update_contrast demoStore (str "bob") (str "first_blood")
    (str "Bob", {str "first_blood"}) (by decide)).1 [] (by decide)
  rw [h]
  decide


/-! ### C1: the add-achievement race -/

/-- C1: the lock is held only inside the file read and the file write, not
across the whole read-modify-write cycle, so the interleaving
read-A, read-B, write-A, write-B of two `add_achievement` calls for
different ckeys loses A's update: both calls return `True` and run to
completion, yet only B's achievement is present in the final file. A
serial schedule (A completes before B starts) keeps both. -/
theorem add_race_loses_update :
    ((runSched [true, false, true, false] raceInit).taskA.ret = some true ∧
     (runSched [true, false, true, false] raceInit).taskB.ret = some true ∧
     (runSched [true, false, true, false] raceInit).taskA.pc = 2 ∧
     (runSched [true, false, true, false] raceInit).taskB.pc = 2 ∧
     getPlayerAchievements (readAll (runSched [true, false, true, false] raceInit).file)
       (str "alice") = none ∧
     getPlayerAchievements (readAll (runSched [true, false, true, false] raceInit).file)
       (str "bob") = some {str "ach_b"}) ∧
    (getPlayerAchievements (readAll (runSched [true, true, false, false] raceInit).file)
       (str "alice") = some {str "ach_a"} ∧
     getPlayerAchievements (readAll (runSched [true, true, false, false] raceInit).file)
       (str "bob") = some {str "ach_b"}) := by
  decide

/-! ### C3: removeAchievementFromAllPlayers -/

theorem zip_map_self {α β : Type} (f : α → β) (l : List α) :
    ∀ pr ∈ l.zip (l.map f), pr.2 = f pr.1 := by
  induction l with
  | nil => intro pr hpr; cases hpr
  | cons a as ih =>
      intro pr hpr
      rw [List.map_cons, List.zip_cons_cons] at hpr
      rcases List.mem_cons.mp hpr with h | h
      · rw [h]
      · exact ih pr h

/-- C3: `removeAchievementFromAllPlayers` returns the exact number of
records whose set contained the normalized id, removes the id from exactly
those records, leaves every other record untouched, and rewrites the file
only when the count is positive. -/
theorem removeAchievementFromAllPlayers_spec (m : Store) (ach : Str) :
    ((removeAchievementFromAllPlayers m ach).1 =
        (m.filter (fun p => normalizeAchId ach ∈ p.2.2)).length) ∧
    ((removeAchievementFromAllPlayers m ach).2.length = m.length) ∧
    (∀ pr ∈ m.zip (removeAchievementFromAllPlayers m ach).2,
        (normalizeAchId ach ∈ pr.1.2.2 →
            pr.2 = (pr.1.1, (pr.1.2.1, pr.1.2.2.erase (normalizeAchId ach)))) ∧
        (normalizeAchId ach ∉ pr.1.2.2 → pr.2 = pr.1)) ∧
    (∀ lines, (removeAchievementFromAllPlayers (readAll lines) ach).1 = 0 →
        removeAllAndPersist lines ach = (0, lines)) ∧
    (∀ lines, 0 < (removeAchievementFromAllPlayers (readAll lines) ach).1 →
        removeAllAndPersist lines ach =
          ((removeAchievementFromAllPlayers (readAll lines) ach).1,
           writeAll (removeAchievementFromAllPlayers (readAll lines) ach).2)) := by
  refine ⟨?_, ?_, ?_, ?_, ?_⟩
  · simp only [removeAchievementFromAllPlayers]
    exact List.countP_eq_length_filter _ _
  · simp [removeAchievementFromAllPlayers]
  · simp only [removeAchievementFromAllPlayers]
    intro pr hpr
    have h2 := zip_map_self
      (fun p => if normalizeAchId ach ∈ p.2.2 then (p.1, (p.2.1, p.2.2.erase (normalizeAchId ach))) else p)
      m pr hpr
    constructor
    · intro hmem
      rw [h2]
      simp [hmem]
    · intro hmem
      rw [h2]
      simp [hmem]
  · intro lines h0
    simp only [removeAllAndPersist]
    rw [h0]
    simp
  · intro lines hpos
    simp only [removeAllAndPersist]
    rw [if_pos hpos]

/-- Witness for C3: an id contained in no record reports count 0 and leaves
the file untouched. -/
theorem removeAchievementFromAllPlayers_spec_witness :
    removeAllAndPersist [str "Bob|bob|first_blood"] (str "x") =
      (0, [str "Bob|bob|first_blood"]) :=
  (removeAchievementFromAllPlayers_spec (readAll [str "Bob|bob|first_blood"])
      (str "x")).2.2.2.1 [str "Bob|bob|first_blood"] (by decide)

/-! ### C9: unique ckeys -/

theorem foldInsert_keys_nodup {α : Type} (f : Str → Option (Str × α)) :
    ∀ (lines : List Str) (acc : List (Str × α)), (acc.map Prod.fst).Nodup →
      ((lines.foldl (insertParsed f) acc).map Prod.fst).Nodup := by
  intro lines
  induction lines with
  | nil => intro acc h; simpa using h
  | cons l ls ih =>
      intro acc h
      simp only [List.foldl_cons, insertParsed]
      cases hf : f l with
      | none => exact ih acc h
      | some e => exact ih _ (keys_nodup_dictInsert _ _ _ h)

theorem storeKeys_map_fst (m : Store) (g : Str × Rec → Str × Rec)
    (h : ∀ p, (g p).1 = p.1) : storeKeys (m.map g) = storeKeys m := by
  induction m with
  | nil => rfl
  | cons p ps ih =>
      simp only [List.map_cons, storeKeys] at ih ⊢
      rw [h p, ih]

/-- C9: every reachable store keys records by unique ckey — parsing any
file yields pairwise-distinct ckeys, each mutation preserves that
uniqueness, and serialization emits exactly one line per record. -/
theorem unique_ckey_invariant :
    (∀ lines, (storeKeys (readAll lines)).Nodup) ∧
    (∀ (m : Store) (ckey ds : Str) (achs : Finset Str), (storeKeys m).Nodup →
        (storeKeys (upsertPlayer m ckey ds achs)).Nodup) ∧
    (∀ (m : Store) (ckey ds ach : Str), (storeKeys m).Nodup →
        (storeKeys (addAchievement m ckey ds ach).2).Nodup) ∧
    (∀ (m : Store) (ckey ds ach : Str), (storeKeys m).Nodup →
        (storeKeys (removeAchievement m ckey ds ach).2).Nodup) ∧
    (∀ (m : Store) (ach : Str), (storeKeys m).Nodup →
        (storeKeys (removeAchievementFromAllPlayers m ach).2).Nodup) ∧
    (∀ m : Store, (writeAll m).length = m.length) := by
  refine ⟨?_, ?_, ?_, ?_, ?_, ?_⟩
  · intro lines
    simp only [storeKeys, readAll]
    exact foldInsert_keys_nodup parseLine lines [] (by simp)
  · intro m ckey ds achs h
    exact keys_nodup_dictInsert _ _ _ h
  · intro m ckey ds ach h
    simp only [addAchievement]
    cases hr : dictGet m (normalizeCkey ckey) with
    | none =>
        simp only [Finset.not_mem_empty, if_false]
        exact keys_nodup_dictInsert _ _ _ h
    | some r =>
        by_cases hmem : normalizeAchId ach ∈ r.2
        · simpa [hmem] using h
        · simp only [hmem, if_false]
          exact keys_nodup_dictInsert _ _ _ h
  · intro m ckey ds ach h
    simp only [removeAchievement]
    cases hr : dictGet m (normalizeCkey ckey) with
    | none => exact h
    | some r =>
        by_cases hmem : normalizeAchId ach ∈ r.2
        · simp only [hmem, not_true, if_neg, not_not]
          have := keys_nodup_dictInsert m (normalizeCkey ckey)
            (ds, r.2.erase (normalizeAchId ach)) h
          simpa [hmem] using this
        · simpa [hmem] using h
  · intro m ach h
    simp only [removeAchievementFromAllPlayers]
    rw [storeKeys_map_fst]
    · exact h
    · intro p
      by_cases hmem : normalizeAchId ach ∈ p.2.2
      · simp [hmem]
      · simp [hmem]
  · intro m
    simp [writeAll]

/-- Witness for C9: a mutation on the demo store keeps ckeys unique. -/
theorem unique_ckey_invariant_witness :
    (storeKeys (addAchievement demoStore (str "amy") (str "Amy") (str "kill")).2).Nodup :=
  unique_ckey_invariant.2.2.1 demoStore (str "amy") (str "Amy") (str "kill") (by decide)


/-! ### Generic lemmas about parsing folds -/

theorem length_filterMap_eq {α β : Type} (f : α → Option β) : ∀ l : List α,
    (l.filterMap f).length = (l.filter (fun x => (f x).isSome)).length := by
  intro l
  induction l with
  | nil => rfl
  | cons a as ih =>
      cases hf : f a with
      | none => simp [List.filterMap_cons, List.filter_cons, hf, ih]
      | some b => simp [List.filterMap_cons, List.filter_cons, hf, ih]

theorem filterMap_filter_isSome {α β : Type} (f : α → Option β) : ∀ l : List α,
    (l.filter (fun x => (f x).isSome)).filterMap f = l.filterMap f := by
  intro l
  induction l with
  | nil => rfl
  | cons a as ih =>
      cases hf : f a with
      | none => simp [List.filter_cons, List.filterMap_cons, hf, ih]
      | some b => simp [List.filter_cons, List.filterMap_cons, hf, ih]

theorem filterMap_option_map {α β γ : Type} (f : α → Option β) (g : β → γ) :
    ∀ l : List α, l.filterMap (fun x => (f x).map g) = (l.filterMap f).map g := by
  intro l
  induction l with
  | nil => rfl
  | cons a as ih =>
      cases hf : f a with
      | none => simp [List.filterMap_cons, hf, ih]
      | some b => simp [List.filterMap_cons, hf, ih]

theorem filterMap_eq_self_of {α : Type} (f : α → Option α) :
    ∀ l : List α, (∀ e ∈ l, f e = some e) → l.filterMap f = l := by
  intro l
  induction l with
  | nil => intro _; rfl
  | cons a as ih =>
      intro h
      rw [List.filterMap_cons, h a (List.mem_cons_self a as),
        ih (fun e he => h e (List.mem_cons_of_mem a he))]

theorem foldInsert_eq_append {α : Type} (f : Str → Option (Str × α)) :
    ∀ (lines : List Str) (acc : List (Str × α)),
      ((lines.filterMap f).map Prod.fst).Nodup →
      (∀ k ∈ (lines.filterMap f).map Prod.fst, k ∉ acc.map Prod.fst) →
      lines.foldl (insertParsed f) acc = acc ++ lines.filterMap f := by
  intro lines
  induction lines with
  | nil =>
      intro acc _ _
      simp
  | cons l ls ih =>
      intro acc hnd hdisj
      simp only [List.foldl_cons, insertParsed]
      cases hf : f l with
      | none =>
          rw [List.filterMap_cons_none hf] at hnd hdisj ⊢
          exact ih acc hnd hdisj
      | some e =>
          rw [List.filterMap_cons_some hf] at hnd hdisj ⊢
          simp only [List.map_cons, List.nodup_cons] at hnd
          have he : e.1 ∉ acc.map Prod.fst :=
            hdisj e.1 (List.mem_map_of_mem Prod.fst (List.mem_cons_self e _))
          show List.foldl (insertParsed f) (dictInsert acc e.1 e.2) ls =
            acc ++ e :: List.filterMap f ls
          rw [dictInsert_eq_append acc e.1 e.2 he]
          rw [ih (acc ++ [(e.1, e.2)]) hnd.2 ?_]
          · simp
          · intro k hk
            rw [List.map_append]
            intro hka
            rcases List.mem_append.mp hka with hka | hke
            · refine hdisj k ?_ hka
              rw [List.map_cons]
              exact List.mem_cons_of_mem _ hk
            · have hke' : k = e.1 := List.mem_singleton.mp hke
              exact hnd.1 (hke' ▸ hk)

/-! ### C5: catalog load counts -/

/-- C5 as stated is false on the code: two valid lines sharing an id
collapse into one table entry, so a file with two valid lines and zero
malformed lines loads into a table of one entry, not two. -/
theorem catalogLoad_dup_counterexample :
    (([str "a|t|d", str "a|t2|d2"].filter
        (fun l => (parseCatalogLine l).isSome)).length = 2) ∧
    ([str "a|t|d", str "a|t2|d2"].countP
        (fun l => (parseCatalogLine l).isNone) = 0) ∧
    (catalogLoad [str "a|t|d", str "a|t2|d2"]).length = 1 := by
  decide

/-- C5 (amended): when the valid lines carry pairwise-distinct ids,
`load()` yields a table of exactly N entries for N valid lines, and the
malformed, blank and comment lines have no effect at all (they can be
filtered away without changing the result); loading never fails on them. -/
theorem catalogLoad_spec (lines : List Str)
    (h : ((lines.filterMap parseCatalogLine).map AchDefinition.id).Nodup) :
    (catalogLoad lines).length =
      (lines.filter (fun l => (parseCatalogLine l).isSome)).length ∧
    catalogLoad lines =
      catalogLoad (lines.filter (fun l => (parseCatalogLine l).isSome)) := by
  have hkeys : ∀ ls : List Str,
      ((ls.filterMap (fun l => (parseCatalogLine l).map (fun d => (d.id, d)))).map
        Prod.fst) = (ls.filterMap parseCatalogLine).map AchDefinition.id := by
    intro ls
    rw [filterMap_option_map, List.map_map]
    rfl
  have hmain : catalogLoad lines =
      [] ++ lines.filterMap (fun l => (parseCatalogLine l).map (fun d => (d.id, d))) := by
    apply foldInsert_eq_append
    · rw [hkeys]
      exact h
    · intro k _ hk
      simp at hk
  constructor
  · rw [hmain]
    simp only [List.nil_append]
    rw [filterMap_option_map, List.length_map, length_filterMap_eq]
  · have hfil : (lines.filter (fun l => (parseCatalogLine l).isSome)).filterMap
        (fun l => (parseCatalogLine l).map (fun d => (d.id, d))) =
        lines.filterMap (fun l => (parseCatalogLine l).map (fun d => (d.id, d))) := by
      have hcong : lines.filter (fun l => (parseCatalogLine l).isSome) =
          lines.filter
            (fun l => ((parseCatalogLine l).map (fun d => (d.id, d))).isSome) := by
        apply List.filter_congr
        intro a _
        cases parseCatalogLine a <;> rfl
      rw [hcong]
      exact filterMap_filter_isSome _ lines
    have hmain2 : catalogLoad (lines.filter (fun l => (parseCatalogLine l).isSome)) =
        [] ++ (lines.filter (fun l => (parseCatalogLine l).isSome)).filterMap
          (fun l => (parseCatalogLine l).map (fun d => (d.id, d))) := by
      apply foldInsert_eq_append
      · rw [hfil, hkeys]
        exact h
      · intro k _ hk
        simp at hk
    rw [hmain, hmain2, hfil]

/-- Witness for C5: a catalog file with two valid lines (distinct ids), a
comment and a malformed line loads exactly two entries. -/
theorem catalogLoad_spec_witness :
    (catalogLoad [str "a|t|d", str "#c", str "bad", str "b|u|e"]).length =
      ([str "a|t|d", str "#c", str "bad", str "b|u|e"].filter
        (fun l => (parseCatalogLine l).isSome)).length :=
  (catalogLoad_spec [str "a|t|d", str "#c", str "bad", str "b|u|e"] (by decide)).1

/-! ### C7: catalog load error semantics -/

/-- C7: a missing backing file makes `load()` return normally with an empty
table; a successful read builds the table from the file's lines and raises
nothing; an I/O failure mid-read propagates to the caller and leaves the
table empty, never partially loaded. -/
theorem catalogLoadRun_error_semantics :
    catalogLoadRun ReadOutcome.missing = ⟨false, []⟩ ∧
    (∀ lines, catalogLoadRun (ReadOutcome.fullRead lines) = ⟨false, catalogLoad lines⟩) ∧
    (∀ lines, catalogLoadRun (ReadOutcome.failedRead lines) = ⟨true, []⟩) :=
  ⟨rfl, fun _ => rfl, fun _ => rfl⟩


/-! ### String-level lemmas for the round-trip -/

theorem getLast?_append_right {α : Type} (l l2 : List α) (h : l2 ≠ []) :
    (l ++ l2).getLast? = l2.getLast? := by
  rw [List.getLast?_append]
  cases hl : l2.getLast? with
  | some a => rfl
  | none =>
      have hh := List.head?_reverse l2
      rw [hl] at hh
      cases hr : l2.reverse with
      | nil => exact absurd (List.reverse_eq_nil_iff.mp hr) h
      | cons x xs => rw [hr] at hh; cases hh

theorem pyStrip_eq_self (s : Str) (h1 : headNotWs s = true) (h2 : lastNotWs s = true) :
    pyStrip s = s := by
  have e1 : s.dropWhile Char.isWhitespace = s := by
    cases s with
    | nil => rfl
    | cons a as =>
        simp only [headNotWs, List.head?] at h1
        rw [List.dropWhile_cons]
        have ha : a.isWhitespace = false := by
          revert h1; cases a.isWhitespace <;> simp
        simp [ha]
  have e2 : s.reverse.dropWhile Char.isWhitespace = s.reverse := by
    cases hr : s.reverse with
    | nil => rfl
    | cons a as =>
        have hlast : s.getLast? = some a := by
          rw [← List.head?_reverse, hr]
          rfl
        simp only [lastNotWs, hlast] at h2
        rw [List.dropWhile_cons]
        have ha : a.isWhitespace = false := by
          revert h2; cases a.isWhitespace <;> simp
        simp [ha]
  rw [pyStrip, e1, e2, List.reverse_reverse]

theorem headNotWs_of_strip_self (s : Str) (h : pyStrip s = s) : headNotWs s = true := by
  cases s with
  | nil => rfl
  | cons a as =>
      simp only [headNotWs, List.head?]
      by_contra hc
      have ha : a.isWhitespace = true := by
        revert hc; cases a.isWhitespace <;> simp
      have hlen : (pyStrip (a :: as)).length ≤ as.length := by
        rw [pyStrip]
        rw [List.dropWhile_cons, if_pos ha]
        calc ((as.dropWhile Char.isWhitespace).reverse.dropWhile
                Char.isWhitespace).reverse.length
            ≤ (as.dropWhile Char.isWhitespace).reverse.length := by
              rw [List.length_reverse]
              exact (List.dropWhile_suffix _).sublist.length_le
          _ ≤ as.length := by
              rw [List.length_reverse]
              exact (List.dropWhile_suffix _).sublist.length_le
      rw [h] at hlen
      simp at hlen

/-! ### pyJoin lemmas -/

theorem pyJoin_ne_nil (c : Char) : ∀ (L : List Str), L ≠ [] → (∀ l ∈ L, l ≠ []) →
    pyJoin c L ≠ [] := by
  intro L
  match L with
  | [] => intro h _; exact absurd rfl h
  | [a] =>
      intro _ h
      simpa [pyJoin] using h a (by simp)
  | a :: b :: rest =>
      intro _ h
      show a ++ c :: pyJoin c (b :: rest) ≠ []
      simp [List.append_eq_nil]

theorem pyJoin_head (c : Char) (a : Str) (rest : List Str) (ha : a ≠ []) :
    (pyJoin c (a :: rest)).head? = a.head? := by
  cases rest with
  | nil => rfl
  | cons b bs =>
      show (a ++ c :: pyJoin c (b :: bs)).head? = a.head?
      cases a with
      | nil => exact absurd rfl ha
      | cons x xs => rfl

theorem pyJoin_getLast (c : Char) : ∀ (L : List Str), L ≠ [] → (∀ l ∈ L, l ≠ []) →
    ∃ l ∈ L, (pyJoin c L).getLast? = l.getLast? := by
  intro L
  induction L with
  | nil => intro h _; exact absurd rfl h
  | cons a rest ih =>
      intro _ hall
      cases rest with
      | nil => exact ⟨a, by simp, rfl⟩
      | cons b bs =>
          obtain ⟨l, hl, he⟩ := ih (by simp)
            (fun x hx => hall x (List.mem_cons_of_mem _ hx))
          refine ⟨l, List.mem_cons_of_mem _ hl, ?_⟩
          show (a ++ c :: pyJoin c (b :: bs)).getLast? = l.getLast?
          rw [getLast?_append_right _ _ (by simp)]
          rw [show c :: pyJoin c (b :: bs) = [c] ++ pyJoin c (b :: bs) from rfl]
          rw [getLast?_append_right _ _
            (pyJoin_ne_nil c (b :: bs) (by simp)
              (fun x hx => hall x (List.mem_cons_of_mem _ hx)))]
          exact he

theorem mem_pyJoin (c : Char) : ∀ (L : List Str) (x : Char), x ∈ pyJoin c L →
    x = c ∨ ∃ l ∈ L, x ∈ l := by
  intro L
  induction L with
  | nil => intro x hx; cases hx
  | cons a rest ih =>
      intro x hx
      cases rest with
      | nil => exact Or.inr ⟨a, by simp, hx⟩
      | cons b bs =>
          rw [show pyJoin c (a :: b :: bs) = a ++ c :: pyJoin c (b :: bs) from rfl] at hx
          rcases List.mem_append.mp hx with h | h
          · exact Or.inr ⟨a, by simp, h⟩
          · rcases List.mem_cons.mp h with h | h
            · exact Or.inl h
            · rcases ih x h with h | ⟨l, hl, hxl⟩
              · exact Or.inl h
              · exact Or.inr ⟨l, List.mem_cons_of_mem _ hl, hxl⟩

theorem pySplit_pyJoin (c : Char) : ∀ (L : List Str), L ≠ [] → (∀ l ∈ L, c ∉ l) →
    pySplit c (pyJoin c L) = L := by
  intro L
  induction L with
  | nil => intro h _; exact absurd rfl h
  | cons a rest ih =>
      intro _ hall
      cases rest with
      | nil =>
          show (pyJoin c [a]).splitOn c = [a]
          rw [show pyJoin c [a] = a from rfl]
          rw [List.splitOn]
          apply List.splitOnP_eq_single
          intro x hx
          simp only [beq_iff_eq]
          exact fun he => hall a (by simp) (he ▸ hx)
      | cons b bs =>
          show (a ++ c :: pyJoin c (b :: bs)).splitOn c = a :: b :: bs
          rw [List.splitOn]
          rw [List.splitOnP_first _ a ?_ c (by simp)]
          · have htail := ih (by simp)
              (fun x hx => hall x (List.mem_cons_of_mem _ hx))
            rw [show (pyJoin c (b :: bs)).splitOnP (· == c) =
              pySplit c (pyJoin c (b :: bs)) from rfl, htail]
          · intro x hx
            simp only [beq_iff_eq]
            exact fun he => hall a (by simp) (he ▸ hx)

/-! ### pySorted lemmas -/

theorem mem_pySorted (s : Finset Str) (a : Str) : a ∈ pySorted s ↔ a ∈ s := by
  rcases s with ⟨val, nd⟩
  revert nd
  refine Quotient.inductionOn val ?_
  intro l nd
  show a ∈ List.insertionSort (· ≤ ·) l ↔ _
  rw [(List.perm_insertionSort (· ≤ ·) l).mem_iff]
  exact (Finset.mem_mk.trans Multiset.mem_coe).symm

theorem pySorted_sorted (s : Finset Str) : List.Sorted (· ≤ ·) (pySorted s) := by
  rcases s with ⟨val, nd⟩
  revert nd
  refine Quotient.inductionOn val ?_
  intro l nd
  exact List.sorted_insertionSort _ l

theorem pySorted_toFinset (s : Finset Str) : (pySorted s).toFinset = s := by
  apply Finset.ext
  intro a
  rw [List.mem_toFinset, mem_pySorted]

theorem pySorted_ne_nil (s : Finset Str) (h : s ≠ ∅) : pySorted s ≠ [] := by
  obtain ⟨a, ha⟩ := Finset.nonempty_iff_ne_empty.mpr h
  intro hnil
  have := (mem_pySorted s a).mpr ha
  rw [hnil] at this
  cases this


theorem map_eq_self_of {α : Type} (f : α → α) :
    ∀ l : List α, (∀ a ∈ l, f a = a) → l.map f = l := by
  intro l
  induction l with
  | nil => intro _; rfl
  | cons a as ih =>
      intro h
      rw [List.map_cons, h a (List.mem_cons_self a as),
        ih (fun x hx => h x (List.mem_cons_of_mem a hx))]

theorem headNotWs_eq_of_head {x y : Str} (h : x.head? = y.head?) :
    headNotWs x = headNotWs y := by
  simp only [headNotWs, h]

theorem lastNotWs_eq_of_getLast {x y : Str} (h : x.getLast? = y.getLast?) :
    lastNotWs x = lastNotWs y := by
  simp only [lastNotWs, h]

/-! ### serializeAchievements lemmas -/

theorem serializeAchievements_ne_nil (s : Finset Str) (hs : ∀ a ∈ s, WFAchId a)
    (h : s ≠ ∅) : serializeAchievements s ≠ [] := by
  rw [serializeAchievements, if_neg h]
  exact pyJoin_ne_nil ',' (pySorted s) (pySorted_ne_nil s h)
    (fun l hl => ((hs l ((mem_pySorted s l).mp hl)).1))

theorem serializeAchievements_no_pipe (s : Finset Str) (hs : ∀ a ∈ s, WFAchId a) :
    '|' ∉ serializeAchievements s := by
  by_cases h : s = ∅
  · rw [serializeAchievements, if_pos h]
    intro hx
    cases hx
  · rw [serializeAchievements, if_neg h]
    intro hx
    rcases mem_pyJoin ',' (pySorted s) '|' hx with hc | ⟨l, hl, hxl⟩
    · cases hc
    · exact (hs l ((mem_pySorted s l).mp hl)).2.2.2.2.1 hxl

theorem serializeAchievements_strip (s : Finset Str) (hs : ∀ a ∈ s, WFAchId a) :
    pyStrip (serializeAchievements s) = serializeAchievements s := by
  by_cases h : s = ∅
  · rw [serializeAchievements, if_pos h]
    rfl
  · rw [serializeAchievements, if_neg h]
    cases hsort : pySorted s with
    | nil => exact absurd hsort (pySorted_ne_nil s h)
    | cons a rest =>
        have hmem : ∀ l ∈ pySorted s, WFAchId l :=
          fun l hl => hs l ((mem_pySorted s l).mp hl)
        have hane : a ≠ [] := (hmem a (hsort ▸ List.mem_cons_self a rest)).1
        apply pyStrip_eq_self
        · rw [headNotWs_eq_of_head (pyJoin_head ',' a rest hane)]
          exact (hmem a (hsort ▸ List.mem_cons_self a rest)).2.1.1
        · obtain ⟨l, hl, he⟩ := pyJoin_getLast ',' (a :: rest) (by simp)
            (fun x hx => (hmem x (hsort ▸ hx)).1)
          rw [lastNotWs_eq_of_getLast he]
          exact (hmem l (hsort ▸ hl)).2.1.2

theorem parse_serializeAchievements (s : Finset Str) (hs : ∀ a ∈ s, WFAchId a) :
    (if serializeAchievements s = [] then (∅ : Finset Str)
     else (((pySplit ',' (serializeAchievements s)).filter
        (fun a => pyStrip a ≠ [])).map (fun a => pyLower (pyStrip a))).toFinset) = s := by
  by_cases h : s = ∅
  · rw [serializeAchievements, if_pos h]
    simp [h]
  · have hmem : ∀ l ∈ pySorted s, WFAchId l :=
      fun l hl => hs l ((mem_pySorted s l).mp hl)
    rw [if_neg (serializeAchievements_ne_nil s hs h)]
    rw [serializeAchievements, if_neg h]
    rw [pySplit_pyJoin ',' (pySorted s) (pySorted_ne_nil s h)
      (fun l hl => (hmem l hl).2.2.2.1)]
    rw [List.filter_eq_self.mpr ?_]
    · rw [map_eq_self_of _ _ ?_]
      · exact pySorted_toFinset s
      · intro a ha
        rw [pyStrip_eq_self a (hmem a ha).2.1.1 (hmem a ha).2.1.2]
        exact (hmem a ha).2.2.1
    · intro a ha
      rw [pyStrip_eq_self a (hmem a ha).2.1.1 (hmem a ha).2.1.2]
      simp [(hmem a ha).1]


theorem serializeAchievements_edge (s : Finset Str) (hs : ∀ a ∈ s, WFAchId a)
    (h : s ≠ ∅) :
    headNotWs (serializeAchievements s) = true ∧
    lastNotWs (serializeAchievements s) = true := by
  rw [serializeAchievements, if_neg h]
  cases hsort : pySorted s with
  | nil => exact absurd hsort (pySorted_ne_nil s h)
  | cons a rest =>
      have hmem : ∀ l ∈ pySorted s, WFAchId l :=
        fun l hl => hs l ((mem_pySorted s l).mp hl)
      have hane : a ≠ [] := (hmem a (hsort ▸ List.mem_cons_self a rest)).1
      constructor
      · rw [headNotWs_eq_of_head (pyJoin_head ',' a rest hane)]
        exact (hmem a (hsort ▸ List.mem_cons_self a rest)).2.1.1
      · obtain ⟨l, hl, he⟩ := pyJoin_getLast ',' (a :: rest) (by simp)
          (fun x hx => (hmem x (hsort ▸ hx)).1)
        rw [lastNotWs_eq_of_getLast he]
        exact (hmem l (hsort ▸ hl)).2.1.2

theorem parseFields_spec (ds k : Str) (s : Finset Str)
    (hdsst : pyStrip ds = ds)
    (hkst : pyStrip k = k) (hklow : pyLower k = k) (hkne : k ≠ [])
    (hs : ∀ a ∈ s, WFAchId a) :
    parseFields ds k [serializeAchievements s] = some (k, (ds, s)) := by
  have hknorm : normalizeCkey k = k := by
    rw [normalizeCkey, hkst, hklow]
  simp only [parseFields, List.headD_cons]
  rw [hkst, hknorm, if_neg hkne, hdsst,
    serializeAchievements_strip s hs, parse_serializeAchievements s hs]

theorem parseLine_serializeLine (k ds : Str) (s : Finset Str)
    (hk : WFCkey k) (hds : WFName ds) (hs : ∀ a ∈ s, WFAchId a) :
    parseLine (serializeLine k (ds, s)) = some (k, (ds, s)) := by
  obtain ⟨hk1, hk2, hk3, hk4, hk5⟩ := hk
  obtain ⟨hds1, hds2, hds3, hds4⟩ := hds
  have hLne : serializeLine k (ds, s) ≠ [] := by
    rw [serializeLine]
    simp [List.append_eq_nil]
  have hheadNW : headNotWs (serializeLine k (ds, s)) = true := by
    cases hd : ds with
    | nil =>
        show headNotWs ('|' :: (k ++ '|' :: serializeAchievements s)) = true
        rfl
    | cons x xs =>
        rw [hd] at hds1
        show headNotWs ((x :: xs) ++ '|' :: (k ++ '|' :: serializeAchievements s)) = true
        rw [headNotWs_eq_of_head
          (show ((x :: xs) ++ '|' :: (k ++ '|' :: serializeAchievements s)).head? =
            (x :: xs).head? from rfl)]
        exact hds1.1
  have hlastNW : lastNotWs (serializeLine k (ds, s)) = true := by
    have h1 : (serializeLine k (ds, s)).getLast? =
        ('|' :: (k ++ '|' :: serializeAchievements s)).getLast? := by
      rw [serializeLine]
      exact getLast?_append_right _ _ (by simp)
    have h2 : ('|' :: (k ++ '|' :: serializeAchievements s)).getLast? =
        (k ++ '|' :: serializeAchievements s).getLast? := by
      rw [show ('|' :: (k ++ '|' :: serializeAchievements s)) =
        ['|'] ++ (k ++ '|' :: serializeAchievements s) from rfl]
      exact getLast?_append_right _ _ (by simp [List.append_eq_nil])
    have h3 : (k ++ '|' :: serializeAchievements s).getLast? =
        ('|' :: serializeAchievements s).getLast? :=
      getLast?_append_right _ _ (by simp)
    by_cases hAe : serializeAchievements s = []
    · rw [lastNotWs_eq_of_getLast ((h1.trans h2).trans h3), hAe]
      rfl
    · have h4 : ('|' :: serializeAchievements s).getLast? =
          (serializeAchievements s).getLast? := by
        rw [show ('|' :: serializeAchievements s) =
          ['|'] ++ serializeAchievements s from rfl]
        exact getLast?_append_right _ _ hAe
      rw [lastNotWs_eq_of_getLast (((h1.trans h2).trans h3).trans h4)]
      have hse : s ≠ ∅ := by
        intro hcon
        exact hAe (by rw [serializeAchievements, if_pos hcon])
      exact (serializeAchievements_edge s hs hse).2
  have hstrip : pyStrip (serializeLine k (ds, s)) = serializeLine k (ds, s) :=
    pyStrip_eq_self _ hheadNW hlastNW
  have hhash : ¬(serializeLine k (ds, s) = [] ∨
      (serializeLine k (ds, s)).head? = some '#') := by
    rintro (h | h)
    · exact hLne h
    · cases hd : ds with
      | nil =>
          rw [hd] at h
          exact absurd (Option.some.inj h) (by decide)
      | cons x xs =>
          rw [hd] at h hds4
          exact hds4 h
  have hsplit : pySplit '|' (serializeLine k (ds, s)) =
      [ds, k, serializeAchievements s] := by
    rw [show serializeLine k (ds, s) =
      pyJoin '|' [ds, k, serializeAchievements s] from rfl]
    apply pySplit_pyJoin '|' [ds, k, serializeAchievements s] (by simp)
    intro l hl
    rcases List.mem_cons.mp hl with h | h
    · rw [h]; exact hds2
    · rcases List.mem_cons.mp h with h | h
      · rw [h]; exact hk4
      · rw [List.mem_singleton.mp h]
        exact serializeAchievements_no_pipe s hs
  simp only [parseLine]
  rw [hstrip, if_neg hhash, hsplit]
  show parseFields ds k [serializeAchievements s] = some (k, (ds, s))
  have hkst : pyStrip k = k := pyStrip_eq_self k hk2.1 hk2.2
  have hdsst : pyStrip ds = ds := pyStrip_eq_self ds hds1.1 hds1.2
  exact parseFields_spec ds k s hdsst hkst hk3 hk1 hs


/-! ### C4: round-trip -/

/-- C4 as universally stated is false on the code: a display name with
leading whitespace (or containing the field separator) is not preserved
verbatim — the reader strips it, so the reloaded mapping differs. -/
theorem roundtrip_counterexample :
    readAll (writeAll [(str "bob", (str " x", (∅ : Finset Str)))]) ≠
      [(str "bob", (str " x", (∅ : Finset Str)))] ∧
    dictGet (readAll (writeAll [(str "bob", (str " x", (∅ : Finset Str)))]))
      (str "bob") = some (str "x", (∅ : Finset Str)) := by
  decide

/-- C4 (amended): for every well-formed store state — ckeys nonempty,
normalized (strip and lowercase fixpoints) and free of the field separator
and newlines; display names strip-fixpoints free of the field separator
and newlines and not starting with the comment character; achievement ids
nonempty, normalized and free of the list and field separators and
newlines; ckeys pairwise distinct — serializing with the whole-file writer
and parsing the result with the reader yields the identical store, and
each record's achievement ids are written sorted ascending. -/
theorem roundtrip_amended (m : Store) (h : WFStore m) :
    readAll (writeAll m) = m ∧
    ∀ e ∈ m, List.Sorted (· ≤ ·) (pySorted e.2.2) := by
  obtain ⟨hnd, hwf⟩ := h
  have hfm : (writeAll m).filterMap parseLine = m := by
    rw [writeAll, List.filterMap_map]
    apply filterMap_eq_self_of
    intro e he
    obtain ⟨hk, hds, hs⟩ := hwf e he
    show parseLine (serializeLine e.1 e.2) = some e
    exact parseLine_serializeLine e.1 e.2.1 e.2.2 hk hds hs
  constructor
  · have hknd : (((writeAll m).filterMap parseLine).map Prod.fst).Nodup := by
      rw [hfm]
      exact hnd
    have hdisj : ∀ x ∈ ((writeAll m).filterMap parseLine).map Prod.fst,
        x ∉ ([] : Store).map Prod.fst := by
      intro x _ hx
      simp at hx
    rw [readAll, foldInsert_eq_append parseLine (writeAll m) [] hknd hdisj, hfm,
      List.nil_append]
  · intro e _
    exact pySorted_sorted e.2.2

/-- Witness for C4: a well-formed record with two achievement ids
round-trips exactly. -/
theorem roundtrip_amended_witness :
    readAll (writeAll [(str "bob", (str "Bob", ({str "b_2", str "a_1"} : Finset Str)))]) =
      [(str "bob", (str "Bob", ({str "b_2", str "a_1"} : Finset Str)))] :=
  (roundtrip_amended [(str "bob", (str "Bob", {str "b_2", str "a_1"}))] (by decide)).1

end LerkBot
